import Mathlib

/-!
Verification of the natural-language specification of `earthformer/common.py`
against a shallow embedding of its code.

The module under study has three functions:
  * `github_raw_url(url)`: rewrites GitHub "blob" URLs to raw-content URLs;
  * `download_file(...)`: downloads one file (delegating the transfer to the
    external `gdown` library) and optionally extracts archives;
  * `download_files(...)`: a batch wrapper iterating `download_file`.

Modelling choices:
  * Python `str` values are Lean `String`s; values that may be `None` are
    `Option String`; `github_raw_url`'s argument, which may be any Python
    value, is modelled by `PyVal` (a string, `None`, or any other value).
  * Python's `str.replace` (replace all, left to right, non-overlapping) and
    `in` (substring test) are implemented from scratch on `List Char`
    (`replaceL`, `containsL`) so that their properties can be proved.
  * `os.path` functions (`basename`, `dirname`, `join`, `splitext`) follow
    the POSIX implementations used by CPython.  `os.path.abspath` is modelled
    as `join(cwd, p)` for relative `p` and the identity for absolute `p`;
    the `normpath` normalisation step (collapsing `..`, `.` and repeated
    separators) is omitted, as no claim concerns normalisation.
  * The filesystem is the set of existing paths (`List String`);
    `os.makedirs` adds the requested directory.  Side effects (prints,
    directory creation, `gdown.download` calls, archive extraction) are
    recorded in an event trace.  The availability of the `gdown` import and
    the value returned by `gdown.download` come from an environment `Env`.
  * Python exceptions are `Except PyErr`: `os.path.dirname(None)` and
    `"..." in None` raise `TypeError`; `None.endswith` raises
    `AttributeError`.  `return` without a value is `Except.ok none`.
-/

namespace Earthformer

/-- Python membership/replace patterns and paths are handled as `List Char`.
`hasPre pre s` is `True` iff `pre` is a prefix of `s` (Python `startswith`). -/
def hasPre : List Char → List Char → Bool
  | [], _ => true
  | _ :: _, [] => false
  | a :: as, b :: bs => a == b && hasPre as bs

/-- `hasSuf suf s` is `True` iff `suf` is a suffix of `s` (Python `endswith`). -/
def hasSuf (suf s : List Char) : Bool :=
  hasPre suf.reverse s.reverse

/-- `containsL pat s` is the Python substring test `pat in s`. -/
def containsL (pat : List Char) : List Char → Bool
  | [] => pat.isEmpty
  | c :: cs => hasPre pat (c :: cs) || containsL pat cs

/-- Fuel-indexed worker for Python `str.replace`: one unit of fuel is spent
per character of the remaining input, so `fuel = s.length` always suffices.
Structural recursion on the fuel keeps the function kernel-reducible. -/
def replaceFuel (pat rep : List Char) : Nat → List Char → List Char
  | _, [] => []
  | 0, s => s
  | fuel + 1, c :: cs =>
    if pat ≠ [] ∧ hasPre pat (c :: cs) = true then
      rep ++ replaceFuel pat rep fuel ((c :: cs).drop pat.length)
    else
      c :: replaceFuel pat rep fuel cs

/-- Python `s.replace(pat, rep)`: replace every occurrence of `pat` in `s`
by `rep`, scanning left to right without rescanning the replacement.
(The module only ever calls it with a non-empty `pat`; for `pat = []` this
model is the identity, unlike Python's interleaving behaviour.) -/
def replaceL (s pat rep : List Char) : List Char :=
  replaceFuel pat rep s.length s

/-- String wrapper for `containsL`: Python `pat in s`. -/
def containsS (pat s : String) : Bool := containsL pat.data s.data

/-- String wrapper for `hasPre`: Python `s.startswith(pre)`. -/
def startsWithS (s pre : String) : Bool := hasPre pre.data s.data

/-- String wrapper for `hasSuf`: Python `s.endswith(suf)`. -/
def endsWithS (s suf : String) : Bool := hasSuf suf.data s.data

/-- String wrapper for `replaceL`: Python `s.replace(pat, rep)`. -/
def pyReplace (s pat rep : String) : String := ⟨replaceL s.data pat.data rep.data⟩

/-- `os.path` helper: number of characters of `p` up to and including the
last `'/'` (CPython's `p.rfind('/') + 1`; `0` when there is no slash). -/
def lastSlashPos (p : List Char) : Nat :=
  p.length - ((p.reverse.findIdx? (fun c => c == '/')).getD p.length)

/-- `os.path.basename` (posixpath): everything after the last `'/'`. -/
def basenameL (p : List Char) : List Char := p.drop (lastSlashPos p)

/-- `os.path.dirname` (posixpath): everything before the last `'/'`, with
trailing slashes stripped unless the head consists only of slashes. -/
def dirnameL (p : List Char) : List Char :=
  let head := p.take (lastSlashPos p)
  if head.any (fun c => !(c == '/')) then
    (head.reverse.dropWhile (fun c => c == '/')).reverse
  else head

/-- `os.path.join(a, b)` (posixpath, two arguments). -/
def joinL (a b : List Char) : List Char :=
  if hasPre ['/'] b then b
  else if a = [] ∨ a.getLast? = some '/' then a ++ b
  else a ++ '/' :: b

/-- `os.path.abspath`, modelled without the final `normpath` normalisation:
an absolute path is returned unchanged, a relative one is joined to `cwd`. -/
def abspathL (cwd p : List Char) : List Char :=
  if hasPre ['/'] p then p else joinL cwd p

/-- Number of characters of `p` up to and including the last `'.'`
(`p.rfind('.') + 1`; `0` when there is no dot). -/
def lastDotPos (p : List Char) : Nat :=
  p.length - ((p.reverse.findIdx? (fun c => c == '.')).getD p.length)

/-- `os.path.splitext` (posixpath): split off the last extension of the
part after the last slash, unless that part consists only of leading dots. -/
def splitextL (p : List Char) : List Char × List Char :=
  let np := lastSlashPos p
  let pre := p.take np
  let name := p.drop np
  let nd := lastDotPos name
  if nd = 0 then (p, [])
  else if (name.take (nd - 1)).any (fun c => !(c == '.')) then
    (pre ++ name.take (nd - 1), name.drop (nd - 1))
  else (p, [])

/-- `os.path.basename` on `String`s. -/
def basenameS (p : String) : String := ⟨basenameL p.data⟩

/-- `os.path.dirname` on `String`s. -/
def dirnameS (p : String) : String := ⟨dirnameL p.data⟩

/-- `os.path.join` on `String`s. -/
def joinS (a b : String) : String := ⟨joinL a.data b.data⟩

/-- `os.path.abspath` on `String`s (relative paths resolved against `cwd`). -/
def abspathS (cwd p : String) : String := ⟨abspathL cwd.data p.data⟩

/-- `os.path.splitext` on `String`s. -/
def splitextS (p : String) : String × String :=
  ((⟨(splitextL p.data).1⟩ : String), (⟨(splitextL p.data).2⟩ : String))

/-- A Python value passed to `github_raw_url`: a `str`, `None`, or any
other (non-string) value. -/
inductive PyVal where
  | str (s : String)
  | pynone
  | other
deriving DecidableEq

/-- Core of `github_raw_url` on an actual string, from the source:
`if url.startswith("https://github.com/") and "blob" in url:` rewrite by
`url.replace("github.com", "raw.githubusercontent.com").replace("blob/", "")`. -/
def github_raw_url_str (u : String) : String :=
  if startsWithS u "https://github.com/" && containsS "blob" u then
    pyReplace (pyReplace u "github.com" "raw.githubusercontent.com") "blob/" ""
  else u

/-- `github_raw_url(url)` from the source: the rewrite applies only when the
argument is a string (`isinstance(url, str)`); anything else is returned
unchanged. -/
def github_raw_url : PyVal → PyVal
  | .str s => .str (github_raw_url_str s)
  | v => v

/-- Arguments of the external transfer call
`gdown.download(url, output, quiet, proxy, speed, use_cookies, verify, id,
fuzzy, resume)`, in source order. -/
structure GdownArgs where
  url : String
  output : Option String
  quiet : Bool
  proxy : Option String
  speed : Option Nat
  use_cookies : Bool
  verify : Bool
  id : Option String
  fuzzy : Bool
  resume : Bool
deriving DecidableEq

/-- Python exceptions that the embedded code can raise. -/
inductive PyErr where
  | typeError
  | attributeError
deriving DecidableEq

/-- Observable side effects of a run, in order of occurrence. -/
inductive Event where
  | printed (msg : String)
  | madeDirs (dir : String)
  | gdownCalled (args : GdownArgs)
  | extractedZip (archive : String) (dest : String)
  | extractedTar (archive : String) (mode : String) (dest : String)
deriving DecidableEq

/-- Whether an event is an invocation of the external transfer routine. -/
def Event.isGdownCall : Event → Bool
  | .gdownCalled _ => true
  | _ => false

/-- Destinations of the archive-extraction events of a trace, in order. -/
def extractDests (tr : List Event) : List String :=
  tr.filterMap fun e =>
    match e with
    | .extractedZip _ d => some d
    | .extractedTar _ _ d => some d
    | _ => none

/-- Execution environment: whether `import gdown` succeeds, the process
working directory (assumed absolute, used by `os.path.abspath` and
`os.getcwd`), and the value returned by `gdown.download` for given
arguments (`none` models a transfer that returns `None`). -/
structure Env where
  gdownAvailable : Bool
  cwd : String
  gdownResult : GdownArgs → Option String

/-- The filesystem model: the list of existing paths. -/
def pathExists (fs : List String) (p : String) : Bool :=
  fs.any fun q => q == p

/-- `if not os.path.exists(d): os.makedirs(d)`: returns the updated
filesystem and the directory-creation events. -/
def ensureDir (fs : List String) (d : String) : List String × List Event :=
  if pathExists fs d then (fs, []) else (d :: fs, [Event.madeDirs d])

/-- Message printed when `import gdown` fails. -/
def gdownMissingMsg : String :=
  "The gdown package is required for this function. Use `pip install gdown` to install it."

/-- Message printed when the output file already exists (the f-string
interpolation of `output` is made explicit). -/
def skipMsg (output : String) : String :=
  output ++ " already exists. Skip downloading. Set overwrite=True to overwrite."

/-- Result of a `download_file` run: the Python return value (or the raised
exception), the final filesystem, and the event trace. -/
structure DLOut where
  ret : Except PyErr (Option String)
  fs : List String
  trace : List Event

/-- Defaulting of the `output` argument, from the source:
`if output is None: if isinstance(url, str) and url.startswith("http"):
output = os.path.basename(url)`. -/
def effOutput (url output : Option String) : Option String :=
  match output with
  | some o => some o
  | none =>
    match url with
    | some u => if startsWithS u "http" then some (basenameS u) else none
    | none => none

/-- The `if unzip:` block of `download_file`, applied to the path `o`
returned by the transfer.  Returns the final value of the Python `output`
variable (reassigned to the subfolder when `subfolder` is set), the updated
filesystem and the emitted events.  `out_dir` is the enclosing scope's
output directory. -/
def extractPhase (fs : List String) (quiet subfolder : Bool)
    (out_dir o : String) : String × List String × List Event :=
  if endsWithS o ".zip" then
    let pe := if quiet then ([] : List Event) else [Event.printed "Extracting files..."]
    if subfolder then
      let base := (splitextS (basenameS o)).1
      let sub := joinS out_dir base
      let ed := ensureDir fs sub
      (sub, ed.1, pe ++ ed.2 ++ [Event.extractedZip o sub])
    else
      (o, fs, pe ++ [Event.extractedZip o (dirnameS o)])
  else if endsWithS o ".tar.gz" || endsWithS o ".tar" then
    let mode := if endsWithS o ".tar.gz" then "r:gz" else "r"
    let pe := if quiet then ([] : List Event) else [Event.printed "Extracting files..."]
    if subfolder then
      let base := (splitextS (basenameS o)).1
      let sub := joinS out_dir base
      let ed := ensureDir fs sub
      (sub, ed.1, pe ++ ed.2 ++ [Event.extractedTar o mode sub])
    else
      (o, fs, pe ++ [Event.extractedTar o mode (dirnameS o)])
  else (o, fs, [])

/-- The `gdown.download` arguments built by `download_file` after the URL
rewrite: the `fuzzy` flag is forced on when the rewritten URL contains the
Google Drive `file/d/` pattern (`if "https://drive.google.com/file/d/" in
url: fuzzy = True`). -/
def dfArgs (u out : String)
    (quiet : Bool) (proxy : Option String) (speed : Option Nat)
    (use_cookies : Bool) (verify : Bool) (id : Option String)
    (fuzzy : Bool) (resume : Bool) : GdownArgs :=
  ⟨github_raw_url_str u, some out, quiet, proxy, speed, use_cookies, verify, id,
    fuzzy || containsS "https://drive.google.com/file/d/" (github_raw_url_str u), resume⟩

/-- The tail of `download_file` once the transfer is reached: call
`gdown.download`, then run the `if unzip:` block, then
`return os.path.abspath(output)`. -/
def transferPhase (env : Env) (fs : List String) (u out : String)
    (quiet : Bool) (proxy : Option String) (speed : Option Nat)
    (use_cookies : Bool) (verify : Bool) (id : Option String)
    (fuzzy : Bool) (resume : Bool) (unzip : Bool)
    (subfolder : Bool) (out_dir : String) : DLOut :=
  let args := dfArgs u out quiet proxy speed use_cookies verify id fuzzy resume
  match env.gdownResult args with
  | none =>
    if unzip then
      -- None.endswith(".zip") raises AttributeError
      { ret := .error .attributeError, fs := fs, trace := [Event.gdownCalled args] }
    else
      -- os.path.abspath(None) raises TypeError
      { ret := .error .typeError, fs := fs, trace := [Event.gdownCalled args] }
  | some o =>
    let fs2 := o :: fs
    if unzip then
      let ex := extractPhase fs2 quiet subfolder out_dir o
      { ret := .ok (some (abspathS env.cwd ex.1)), fs := ex.2.1,
        trace := Event.gdownCalled args :: ex.2.2 }
    else
      { ret := .ok (some (abspathS env.cwd o)), fs := fs2,
        trace := [Event.gdownCalled args] }

/-- Shallow embedding of `download_file` from `earthformer/common.py`,
parameter for parameter.  The transfer itself is delegated to
`env.gdownResult`; on success the returned path is added to the filesystem. -/
def download_file (env : Env) (fs : List String)
    (url output : Option String)
    (quiet : Bool) (proxy : Option String) (speed : Option Nat)
    (use_cookies : Bool) (verify : Bool) (id : Option String)
    (fuzzy : Bool) (resume : Bool) (unzip : Bool)
    (overwrite : Bool) (subfolder : Bool) : DLOut :=
  if env.gdownAvailable = false then
    { ret := .ok none, fs := fs, trace := [Event.printed gdownMissingMsg] }
  else
    match effOutput url output with
    | none =>
      -- os.path.dirname(None) raises TypeError
      { ret := .error .typeError, fs := fs, trace := [] }
    | some out =>
      let out_dir := abspathS env.cwd (dirnameS out)
      let ed := ensureDir fs out_dir
      match url with
      | none =>
        -- "https://drive.google.com/file/d/" in None raises TypeError
        { ret := .error .typeError, fs := ed.1, trace := ed.2 }
      | some u =>
        if pathExists ed.1 (abspathS env.cwd out) && !overwrite then
          { ret := .ok (some (abspathS env.cwd out)), fs := ed.1,
            trace := ed.2 ++ [Event.printed (skipMsg out)] }
        else
          let tp := transferPhase env ed.1 u out quiet proxy speed use_cookies
            verify id fuzzy resume unzip subfolder out_dir
          { ret := tp.ret, fs := tp.fs, trace := ed.2 ++ tp.trace }

/-- Per-item destination computed by `download_files`:
`os.path.join(out_dir, os.path.basename(url))` when no filename was given,
else `os.path.join(out_dir, output)`. -/
def itemDest (out_dir url : String) (output : Option String) : String :=
  match output with
  | none => joinS out_dir (basenameS url)
  | some o => joinS out_dir o

/-- Result of a `download_files` run: the exception that aborted the batch
(if any), the final filesystem, the `(url, filename)` pairs passed to
`download_file` in order, and the combined event trace. -/
structure BatchOut where
  err : Option PyErr
  fs : List String
  calls : List (String × String)
  trace : List Event

/-- The `for url, output in zip(urls, filenames):` loop of `download_files`.
An exception raised by `download_file` propagates: the loop stops and no
later pair is processed. -/
def download_files_go (env : Env) (out_dir : String)
    (quiet : Bool) (proxy : Option String) (speed : Option Nat)
    (use_cookies : Bool) (verify : Bool) (id : Option String)
    (fuzzy : Bool) (resume : Bool) (unzip : Bool)
    (overwrite : Bool) (subfolder : Bool) :
    List String → List (String × Option String) → BatchOut
  | fs, [] => { err := none, fs := fs, calls := [], trace := [] }
  | fs, (url, output) :: rest =>
    let filename := itemDest out_dir url output
    let r := download_file env fs (some url) (some filename) quiet proxy speed
      use_cookies verify id fuzzy resume unzip overwrite subfolder
    match r.ret with
    | .error e => { err := some e, fs := r.fs, calls := [(url, filename)], trace := r.trace }
    | .ok _ =>
      let b := download_files_go env out_dir quiet proxy speed use_cookies verify
        id fuzzy resume unzip overwrite subfolder r.fs rest
      { err := b.err, fs := b.fs, calls := (url, filename) :: b.calls,
        trace := r.trace ++ b.trace }

/-- The `(url, filename)` pairs `download_files` passes to `download_file`
when it iterates over `zip(urls, filenames)` with output directory `od`. -/
def destPairs (od : String) (pairs : List (String × Option String)) :
    List (String × String) :=
  pairs.map fun q => (q.1, itemDest od q.1 q.2)

/-- `if filenames is None: filenames = [None] * len(urls)`. -/
def effectiveFilenames (urls : List String) : Option (List (Option String)) → List (Option String)
  | none => urls.map fun _ => none
  | some l => l

/-- `if out_dir is None: out_dir = os.getcwd()`. -/
def effOutDir (env : Env) : Option String → String
  | none => env.cwd
  | some d => d

/-- Shallow embedding of `download_files` from `earthformer/common.py`. -/
def download_files (env : Env) (fs : List String) (urls : List String)
    (out_dir : Option String) (filenames : Option (List (Option String)))
    (quiet : Bool) (proxy : Option String) (speed : Option Nat)
    (use_cookies : Bool) (verify : Bool) (id : Option String)
    (fuzzy : Bool) (resume : Bool) (unzip : Bool)
    (overwrite : Bool) (subfolder : Bool) : BatchOut :=
  download_files_go env (effOutDir env out_dir) quiet proxy speed use_cookies
    verify id fuzzy resume unzip overwrite subfolder fs
    (urls.zip (effectiveFilenames urls filenames))

/-- The output directory of a `download_file` call with output path `out`:
`os.path.abspath(os.path.dirname(output))`. -/
def outDirOf (env : Env) (out : String) : String :=
  abspathS env.cwd (dirnameS out)

/-- The subfolder an archive `o` is extracted into when `subfolder` is set:
`os.path.join(out_dir, os.path.splitext(os.path.basename(output))[0])`. -/
def subDirOf (env : Env) (out o : String) : String :=
  joinS (outDirOf env out) ((splitextS (basenameS o)).1)

/-- No non-empty suffix of `p` is a prefix of `q` (in particular, `p` itself
is not a prefix of `q`).  Used to show that replacing occurrences of `p`
cannot destroy an occurrence of `q`. -/
def NoSufPre (p q : List Char) : Prop :=
  ∀ m x y, m ≠ [] → p = x ++ m → q = m ++ y → False

/-- No non-empty prefix of `p` is a suffix of `q` (in particular, `p` itself
is not a suffix of `q`). -/
def NoPreSuf (p q : List Char) : Prop :=
  ∀ m t x, m ≠ [] → p = m ++ t → q = x ++ m → False

/-- Decidable check for `NoSufPre`. -/
def checkNoSufPre (p q : List Char) : Bool :=
  (List.range p.length).all fun k => !(hasPre (p.drop k) q)

/-- Decidable check for `NoPreSuf`. -/
def checkNoPreSuf (p q : List Char) : Bool :=
  (List.range p.length).all fun j => !(hasSuf (p.take (j + 1)) q)

/-- Test environment: `gdown` importable, every transfer returns `"x"`. -/
def envAvail : Env := ⟨true, "/w", fun _ => some "x"⟩

/-- Test environment: `gdown` not importable. -/
def envMissing : Env := ⟨false, "/w", fun _ => some "x"⟩

/-- Test environment: `gdown` importable, every transfer returns `None`. -/
def envNoneRes : Env := ⟨true, "/w", fun _ => none⟩

/-- Test environment: `gdown` importable, every transfer returns
`"/w/f.zip"`. -/
def envZipRes : Env := ⟨true, "/w", fun _ => some "/w/f.zip"⟩

theorem hasPre_iff (p : List Char) : ∀ s, hasPre p s = true ↔ ∃ t, s = p ++ t := by
  induction p with
  | nil => intro s; simp [hasPre]
  | cons a as ih =>
    intro s
    cases s with
    | nil => simp [hasPre]
    | cons b bs =>
      simp only [hasPre, Bool.and_eq_true, beq_iff_eq, List.cons_append]
      constructor
      · rintro ⟨rfl, h⟩
        obtain ⟨t, rfl⟩ := (ih bs).1 h
        exact ⟨t, rfl⟩
      · rintro ⟨t, ht⟩
        injection ht with h1 h2
        exact ⟨h1.symm, (ih bs).2 ⟨t, h2⟩⟩

theorem hasSuf_iff (p s : List Char) : hasSuf p s = true ↔ ∃ t, s = t ++ p := by
  unfold hasSuf
  rw [hasPre_iff]
  constructor
  · rintro ⟨t, ht⟩
    refine ⟨t.reverse, ?_⟩
    have := congrArg List.reverse ht
    simpa using this
  · rintro ⟨t, rfl⟩
    exact ⟨t.reverse, by simp⟩

theorem containsL_iff (p : List Char) :
    ∀ s, containsL p s = true ↔ ∃ x y, s = x ++ p ++ y := by
  intro s
  induction s with
  | nil =>
    simp only [containsL, List.isEmpty_iff]
    constructor
    · rintro rfl; exact ⟨[], [], rfl⟩
    · rintro ⟨x, y, h⟩
      rcases List.append_eq_nil.mp h.symm with ⟨h1, -⟩
      rcases List.append_eq_nil.mp h1 with ⟨-, h2⟩
      exact h2
  | cons c cs ih =>
    simp only [containsL, Bool.or_eq_true, hasPre_iff, ih]
    constructor
    · rintro (⟨t, ht⟩ | ⟨x, y, hy⟩)
      · exact ⟨[], t, by simpa using ht⟩
      · exact ⟨c :: x, y, by simp [hy]⟩
    · rintro ⟨x, y, h⟩
      cases x with
      | nil => exact Or.inl ⟨y, by simpa using h⟩
      | cons d ds =>
        right
        injection h with h1 h2
        exact ⟨ds, y, h2⟩

theorem containsL_nil_pat (s : List Char) : containsL [] s = true := by
  cases s with
  | nil => rfl
  | cons c cs => simp [containsL, hasPre]

theorem containsL_append_left (p r t : List Char) (h : containsL p t = true) :
    containsL p (r ++ t) = true := by
  rcases (containsL_iff p t).1 h with ⟨x, y, rfl⟩
  exact (containsL_iff p _).2 ⟨r ++ x, y, by simp⟩

theorem containsL_cons_of (p : List Char) (c : Char) (t : List Char)
    (h : containsL p t = true) : containsL p (c :: t) = true := by
  simp only [containsL, Bool.or_eq_true]
  exact Or.inr h

theorem containsL_self_append (p y : List Char) : containsL p (p ++ y) = true :=
  (containsL_iff p _).2 ⟨[], y, by simp⟩

theorem leviChars :
    ∀ (a b s t : List Char), a ++ s = b ++ t → a.length ≤ b.length →
      ∃ m, b = a ++ m ∧ s = m ++ t := by
  intro a
  induction a with
  | nil =>
    intro b s t h _
    exact ⟨b, rfl, by simpa using h⟩
  | cons x a' ih =>
    intro b s t h hl
    cases b with
    | nil => simp at hl
    | cons y b' =>
      simp only [List.cons_append] at h
      injection h with h1 h2
      obtain ⟨m, hm1, hm2⟩ := ih b' s t h2 (by simpa using hl)
      subst h1
      exact ⟨m, by simp [hm1], hm2⟩

theorem replaceFuel_nil (pat rep : List Char) (f : Nat) :
    replaceFuel pat rep f [] = [] := by
  cases f <;> rfl

theorem replaceFuel_cons (pat rep : List Char) (f : Nat) (c : Char) (cs : List Char) :
    replaceFuel pat rep (f + 1) (c :: cs) =
      if pat ≠ [] ∧ hasPre pat (c :: cs) = true then
        rep ++ replaceFuel pat rep f ((c :: cs).drop pat.length)
      else c :: replaceFuel pat rep f cs := rfl

theorem replaceFuel_copy (pat rep : List Char) :
    ∀ (u : List Char) (v : List Char) (f : Nat),
      (∀ k, k < u.length → hasPre pat (u.drop k ++ v) = false) →
      replaceFuel pat rep (u.length + f) (u ++ v) = u ++ replaceFuel pat rep f v := by
  intro u
  induction u with
  | nil => intro v f _; simp
  | cons c u' ih =>
    intro v f hk
    have hcond : hasPre pat ((c :: u') ++ v) = false := by
      simpa using hk 0 (by simp)
    have hfe : (c :: u').length + f = (u'.length + f) + 1 := by
      simp [Nat.succ_add]
    rw [hfe, List.cons_append, replaceFuel_cons, if_neg (by simp [List.cons_append] at hcond ⊢; simp [hcond])]
    have ih' := ih v f (fun k hk' => by simpa using hk (k + 1) (by simpa using hk'))
    rw [ih']
    simp

theorem noSufPre_of_check (p q : List Char) (h : checkNoSufPre p q = true) :
    NoSufPre p q := by
  intro m x y hm hp hq
  have hxlt : x.length < p.length := by
    subst hp
    have := List.length_append x m
    have hml : 0 < m.length := List.length_pos.mpr hm
    omega
  have hall := List.all_eq_true.mp h x.length (List.mem_range.mpr hxlt)
  have hdrop : p.drop x.length = m := by
    subst hp; exact List.drop_left x m
  rw [hdrop] at hall
  have : hasPre m q = true := (hasPre_iff m q).2 ⟨y, hq⟩
  simp [this] at hall

theorem noPreSuf_of_check (p q : List Char) (h : checkNoPreSuf p q = true) :
    NoPreSuf p q := by
  intro m t x hm hp hq
  have hml : 0 < m.length := List.length_pos.mpr hm
  have hmle : m.length ≤ p.length := by
    subst hp
    have := List.length_append m t
    omega
  have hjlt : m.length - 1 < p.length := by omega
  have hall := List.all_eq_true.mp h (m.length - 1) (List.mem_range.mpr hjlt)
  have htake : p.take (m.length - 1 + 1) = m := by
    have : m.length - 1 + 1 = m.length := by omega
    rw [this]
    subst hp
    exact List.take_left m t
  rw [htake] at hall
  have : hasSuf m q = true := (hasSuf_iff m q).2 ⟨x, hq⟩
  simp [this] at hall

theorem replaceFuel_preserves (p₁ rep p₂ : List Char)
    (h1 : NoSufPre p₁ p₂) (h2 : NoPreSuf p₁ p₂)
    (h3 : containsL p₁ p₂ = false) (h4 : containsL p₂ p₁ = false) :
    ∀ (f : Nat) (s : List Char), s.length ≤ f → containsL p₂ s = true →
      containsL p₂ (replaceFuel p₁ rep f s) = true := by
  intro f
  induction f with
  | zero =>
    intro s hl hc
    have : s = [] := List.length_eq_zero.mp (Nat.le_zero.mp hl)
    subst this
    simpa [replaceFuel_nil] using hc
  | succ f ih =>
    intro s hl hc
    cases s with
    | nil => simpa [replaceFuel_nil] using hc
    | cons c cs =>
      by_cases hcond : p₁ ≠ [] ∧ hasPre p₁ (c :: cs) = true
      · rw [replaceFuel_cons, if_pos hcond]
        obtain ⟨s₂, hs₂⟩ := (hasPre_iff p₁ (c :: cs)).1 hcond.2
        have hdrop : (c :: cs).drop p₁.length = s₂ := by
          rw [hs₂]; exact List.drop_left p₁ s₂
        rw [hdrop]
        have hp₁pos : 0 < p₁.length := List.length_pos.mpr hcond.1
        have hlen2 : s₂.length ≤ f := by
          have := congrArg List.length hs₂
          simp [List.length_append] at this
          simp at hl
          omega
        obtain ⟨x, y, hxy⟩ := (containsL_iff p₂ (c :: cs)).1 hc
        rw [hs₂] at hxy
        rcases le_or_lt p₁.length x.length with hle | hlt
        · obtain ⟨m, hm1, hm2⟩ := leviChars p₁ x s₂ (p₂ ++ y)
            (by rw [hxy]; simp [List.append_assoc]) hle
          have hcs₂ : containsL p₂ s₂ = true :=
            (containsL_iff p₂ s₂).2 ⟨m, y, by rw [hm2]; simp [List.append_assoc]⟩
          exact containsL_append_left p₂ rep _ (ih s₂ hlen2 hcs₂)
        · obtain ⟨m, hm1, hm2⟩ := leviChars x p₁ (p₂ ++ y) s₂
            (by rw [← List.append_assoc, ← hxy]) (Nat.le_of_lt hlt)
          have hmne : m ≠ [] := by
            intro hme
            subst hme
            rw [List.append_nil] at hm1
            subst hm1
            exact lt_irrefl _ hlt
          rcases le_or_lt m.length p₂.length with hle2 | hlt2
          · obtain ⟨m', hm'1, hm'2⟩ := leviChars m p₂ s₂ y hm2.symm hle2
            exact (h1 m x m' hmne hm1 hm'1).elim
          · obtain ⟨m'', hm''1, hm''2⟩ := leviChars p₂ m y s₂ hm2 (Nat.le_of_lt hlt2)
            have : containsL p₂ p₁ = true :=
              (containsL_iff p₂ p₁).2 ⟨x, m'', by rw [hm1, hm''1, List.append_assoc]⟩
            rw [this] at h4
            cases h4
      · obtain ⟨x, y, hxy⟩ := (containsL_iff p₂ (c :: cs)).1 hc
        cases x with
        | nil =>
          simp only [List.nil_append] at hxy
          rcases eq_or_ne p₂ [] with hp2 | hp2ne
          · subst hp2
            exact containsL_nil_pat _
          have hcopy : ∀ k, k < p₂.length → hasPre p₁ (p₂.drop k ++ y) = false := by
            intro k hk
            by_contra hcon
            have hcon' : hasPre p₁ (p₂.drop k ++ y) = true := by
              revert hcon; cases hasPre p₁ (p₂.drop k ++ y) <;> simp
            obtain ⟨r, hr⟩ := (hasPre_iff p₁ _).1 hcon'
            have hw : p₂ = p₂.take k ++ p₂.drop k := (List.take_append_drop k p₂).symm
            have hwne : p₂.drop k ≠ [] := by
              intro hh
              have := congrArg List.length hh
              simp [List.length_drop] at this
              omega
            rcases le_or_lt p₁.length (p₂.drop k).length with hle3 | hlt3
            · obtain ⟨m, hm1, -⟩ := leviChars p₁ (p₂.drop k) r y hr.symm hle3
              have hdec : p₂ = p₂.take k ++ p₁ ++ m := by
                calc p₂ = p₂.take k ++ p₂.drop k := hw
                  _ = p₂.take k ++ (p₁ ++ m) := by rw [hm1]
                  _ = p₂.take k ++ p₁ ++ m := (List.append_assoc _ _ _).symm
              have : containsL p₁ p₂ = true :=
                (containsL_iff p₁ p₂).2 ⟨p₂.take k, m, hdec⟩
              rw [this] at h3
              cases h3
            · obtain ⟨m, hm1, -⟩ := leviChars (p₂.drop k) p₁ y r hr (Nat.le_of_lt hlt3)
              exact h2 (p₂.drop k) m (p₂.take k) hwne hm1 hw
          have hflen : p₂.length ≤ f + 1 := by
            have := congrArg List.length hxy
            simp [List.length_append] at this
            simp at hl
            omega
          have hfe : f + 1 = p₂.length + (f + 1 - p₂.length) := by omega
          calc containsL p₂ (replaceFuel p₁ rep (f + 1) (c :: cs))
              = containsL p₂ (replaceFuel p₁ rep (p₂.length + (f + 1 - p₂.length)) (p₂ ++ y)) := by
                rw [← hfe, ← hxy]
            _ = containsL p₂ (p₂ ++ replaceFuel p₁ rep (f + 1 - p₂.length) y) := by
                rw [replaceFuel_copy p₁ rep p₂ y _ hcopy]
            _ = true := containsL_self_append p₂ _
        | cons d ds =>
          rw [replaceFuel_cons, if_neg hcond]
          injection hxy with hxy1 hxy2
          have hcs : containsL p₂ cs = true := (containsL_iff p₂ cs).2 ⟨ds, y, hxy2⟩
          have hlen3 : cs.length ≤ f := by simp at hl; omega
          exact containsL_cons_of p₂ c _ (ih cs hlen3 hcs)

theorem replaceL_preserves (p₁ rep p₂ : List Char)
    (h1 : NoSufPre p₁ p₂) (h2 : NoPreSuf p₁ p₂)
    (h3 : containsL p₁ p₂ = false) (h4 : containsL p₂ p₁ = false)
    (s : List Char) (hc : containsL p₂ s = true) :
    containsL p₂ (replaceL s p₁ rep) = true :=
  replaceFuel_preserves p₁ rep p₂ h1 h2 h3 h4 s.length s le_rfl hc

theorem contains_drive_github_raw (u : String)
    (h : containsS "https://drive.google.com/file/d/" u = true) :
    containsS "https://drive.google.com/file/d/" (github_raw_url_str u) = true := by
  unfold github_raw_url_str
  by_cases hcond : (startsWithS u "https://github.com/" && containsS "blob" u) = true
  · rw [if_pos hcond]
    show containsL "https://drive.google.com/file/d/".data
      (replaceL (replaceL u.data "github.com".data "raw.githubusercontent.com".data)
        "blob/".data "".data) = true
    apply replaceL_preserves
    · exact noSufPre_of_check _ _ (by decide)
    · exact noPreSuf_of_check _ _ (by decide)
    · decide
    · decide
    · apply replaceL_preserves
      · exact noSufPre_of_check _ _ (by decide)
      · exact noPreSuf_of_check _ _ (by decide)
      · decide
      · decide
      · exact h
  · rw [if_neg hcond]
    exact h

theorem pathExists_cons (fs : List String) (d p : String)
    (h : pathExists fs p = true) : pathExists (d :: fs) p = true := by
  simp only [pathExists, List.any_cons, Bool.or_eq_true]
  exact Or.inr h

theorem pathExists_self_cons (fs : List String) (d : String) :
    pathExists (d :: fs) d = true := by
  simp [pathExists]

theorem ensureDir_fst_self (fs : List String) (d : String) :
    pathExists (ensureDir fs d).1 d = true := by
  unfold ensureDir
  by_cases h : pathExists fs d = true
  · simp [h]
  · simp only [Bool.not_eq_true] at h
    simp [h, pathExists_self_cons]

theorem ensureDir_fst_mono (fs : List String) (d p : String)
    (h : pathExists fs p = true) : pathExists (ensureDir fs d).1 p = true := by
  unfold ensureDir
  by_cases hd : pathExists fs d = true
  · simp [hd, h]
  · simp only [Bool.not_eq_true] at hd
    simp [hd, pathExists_cons _ _ _ h]

theorem ensureDir_eq_absent (fs : List String) (d : String)
    (h : pathExists fs d = false) :
    ensureDir fs d = (d :: fs, [Event.madeDirs d]) := by
  simp [ensureDir, h]

theorem ensureDir_eq_present (fs : List String) (d : String)
    (h : pathExists fs d = true) : ensureDir fs d = (fs, []) := by
  simp [ensureDir, h]

theorem ensureDir_all_no_gdown (fs : List String) (d : String) :
    ((ensureDir fs d).2.all fun e => !e.isGdownCall) = true := by
  unfold ensureDir
  by_cases h : pathExists fs d = true
  · simp [h]
  · simp only [Bool.not_eq_true] at h
    simp [h, Event.isGdownCall]

theorem ensureDir_mem_gdown (fs : List String) (d : String) (a : GdownArgs)
    (h : Event.gdownCalled a ∈ (ensureDir fs d).2) : False := by
  unfold ensureDir at h
  by_cases hd : pathExists fs d = true
  · simp [hd] at h
  · simp only [Bool.not_eq_true] at hd
    simp [hd] at h

theorem extractPhase_mem_gdown (fs : List String) (quiet subfolder : Bool)
    (out_dir o : String) (a : GdownArgs)
    (h : Event.gdownCalled a ∈ (extractPhase fs quiet subfolder out_dir o).2.2) :
    False := by
  simp only [extractPhase, ensureDir] at h
  split_ifs at h <;> simp_all

theorem extractPhase_fs_mono (fs : List String) (quiet subfolder : Bool)
    (out_dir o p : String) (h : pathExists fs p = true) :
    pathExists (extractPhase fs quiet subfolder out_dir o).2.1 p = true := by
  simp only [extractPhase]
  split_ifs <;>
    first
      | exact ensureDir_fst_mono _ _ _ h
      | exact h

/-- C2: `github_raw_url` rewrites exactly the string URLs that start with
`"https://github.com/"` and contain `"blob"`, replacing `"github.com"` by
`"raw.githubusercontent.com"` and removing every occurrence of `"blob/"`
(Python's replace-all semantics, `pyReplace`); every other input — a string
failing the condition, `None`, or a non-string — is returned unchanged. -/
theorem github_raw_url_cases (v : PyVal) :
    (∀ s, v = PyVal.str s → startsWithS s "https://github.com/" = true →
        containsS "blob" s = true →
        github_raw_url v =
          PyVal.str (pyReplace (pyReplace s "github.com" "raw.githubusercontent.com")
            "blob/" "")) ∧
    (∀ s, v = PyVal.str s →
        ¬(startsWithS s "https://github.com/" = true ∧ containsS "blob" s = true) →
        github_raw_url v = v) ∧
    ((∀ s, v ≠ PyVal.str s) → github_raw_url v = v) := by
  refine ⟨?_, ?_, ?_⟩
  · rintro s rfl h1 h2
    simp [github_raw_url, github_raw_url_str, h1, h2]
  · rintro s rfl hn
    have hfalse : (startsWithS s "https://github.com/" && containsS "blob" s) = false := by
      cases h1 : startsWithS s "https://github.com/" <;>
        cases h2 : containsS "blob" s <;> simp_all
    simp [github_raw_url, github_raw_url_str, hfalse]
  · intro hns
    cases v with
    | str s => exact absurd rfl (hns s)
    | pynone => rfl
    | other => rfl

/-- Witness for C2 at a GitHub blob URL. -/
theorem github_raw_url_cases_w :
    github_raw_url (PyVal.str "https://github.com/a/blob/b.txt") =
      PyVal.str (pyReplace (pyReplace "https://github.com/a/blob/b.txt"
        "github.com" "raw.githubusercontent.com") "blob/" "") :=
  (github_raw_url_cases (PyVal.str "https://github.com/a/blob/b.txt")).1
    "https://github.com/a/blob/b.txt" rfl (by decide) (by decide)

/-- C5: if `import gdown` fails, `download_file` prints the install hint and
returns `None`, with the filesystem unchanged (no writes, no directory
creation) and no transfer event. -/
theorem download_file_gdown_missing
    (env : Env) (fs : List String) (url output : Option String)
    (quiet : Bool) (proxy : Option String) (speed : Option Nat)
    (use_cookies verify : Bool) (id : Option String)
    (fuzzy resume unzip overwrite subfolder : Bool)
    (hg : env.gdownAvailable = false) :
    download_file env fs url output quiet proxy speed use_cookies verify id
        fuzzy resume unzip overwrite subfolder =
      { ret := .ok none, fs := fs, trace := [Event.printed gdownMissingMsg] } := by
  simp [download_file, hg]

/-- Witness for C5. -/
theorem download_file_gdown_missing_w :
    download_file envMissing [] (some "http://h/a") (some "a") false none none
        true true none false false true false false =
      { ret := .ok none, fs := [], trace := [Event.printed gdownMissingMsg] } :=
  download_file_gdown_missing envMissing [] (some "http://h/a") (some "a")
    false none none true true none false false true false false rfl

/-- C1: with the import available, if the output path already exists and
`overwrite` is `False`, `download_file` prints the skip message and returns
the absolute existing output path; the transfer routine is never invoked
(no `gdownCalled` event appears in the trace). -/
theorem download_file_skip_existing
    (env : Env) (fs : List String) (u out : String)
    (quiet : Bool) (proxy : Option String) (speed : Option Nat)
    (use_cookies verify : Bool) (id : Option String)
    (fuzzy resume unzip subfolder : Bool)
    (hg : env.gdownAvailable = true)
    (hex : pathExists fs (abspathS env.cwd out) = true) :
    (download_file env fs (some u) (some out) quiet proxy speed use_cookies verify id
        fuzzy resume unzip false subfolder).ret = .ok (some (abspathS env.cwd out)) ∧
    ∀ a : GdownArgs, Event.gdownCalled a ∉
      (download_file env fs (some u) (some out) quiet proxy speed use_cookies verify id
        fuzzy resume unzip false subfolder).trace := by
  have hex1 : pathExists (ensureDir fs (abspathS env.cwd (dirnameS out))).1
      (abspathS env.cwd out) = true := ensureDir_fst_mono _ _ _ hex
  refine ⟨?_, ?_⟩
  · simp [download_file, hg, effOutput, hex1]
  · intro a ha
    simp [download_file, hg, effOutput, hex1] at ha
    exact ensureDir_mem_gdown _ _ _ ha

/-- Witness for C1. -/
theorem download_file_skip_existing_w :
    (download_file envAvail ["/w/a.txt"] (some "http://h/a.txt") (some "a.txt")
        false none none true true none false false true false false).ret
      = .ok (some (abspathS envAvail.cwd "a.txt")) :=
  (download_file_skip_existing envAvail ["/w/a.txt"] "http://h/a.txt" "a.txt"
    false none none true true none false false true false rfl (by decide)).1

/-- C9: with the import available, calling `download_file` with `url = None`
always raises `TypeError` before the transfer is invoked: when `output` is
also `None` the directory computation `os.path.dirname(None)` fails, and
otherwise the Google-Drive substring test is applied to `None`; in both
cases no transfer event is emitted. -/
theorem download_file_url_none_raises
    (env : Env) (fs : List String) (output : Option String)
    (quiet : Bool) (proxy : Option String) (speed : Option Nat)
    (use_cookies verify : Bool) (id : Option String)
    (fuzzy resume unzip overwrite subfolder : Bool)
    (hg : env.gdownAvailable = true) :
    (download_file env fs none output quiet proxy speed use_cookies verify id
        fuzzy resume unzip overwrite subfolder).ret = .error .typeError ∧
    ∀ a : GdownArgs, Event.gdownCalled a ∉
      (download_file env fs none output quiet proxy speed use_cookies verify id
        fuzzy resume unzip overwrite subfolder).trace := by
  cases output with
  | none =>
    refine ⟨by simp [download_file, hg, effOutput], ?_⟩
    intro a ha
    simp [download_file, hg, effOutput] at ha
  | some out =>
    refine ⟨by simp [download_file, hg, effOutput], ?_⟩
    intro a ha
    simp only [download_file, hg, effOutput] at ha
    exact ensureDir_mem_gdown _ _ _ (by simpa using ha)

/-- Witness for C9 (with `output` given, so the failure comes from the
substring test on `None`). -/
theorem download_file_url_none_raises_w :
    (download_file envAvail [] none (some "a") false none none true true none
        false false true false false).ret = .error .typeError :=
  (download_file_url_none_raises envAvail [] (some "a") false none none true true
    none false false true false false rfl).1

theorem transferPhase_gdown_args (env : Env) (fs : List String) (u out : String)
    (quiet : Bool) (proxy : Option String) (speed : Option Nat)
    (use_cookies verify : Bool) (id : Option String)
    (fuzzy resume unzip subfolder : Bool) (out_dir : String) (a : GdownArgs)
    (ha : Event.gdownCalled a ∈ (transferPhase env fs u out quiet proxy speed
      use_cookies verify id fuzzy resume unzip subfolder out_dir).trace) :
    a = dfArgs u out quiet proxy speed use_cookies verify id fuzzy resume := by
  simp only [transferPhase] at ha
  rcases hres : env.gdownResult (dfArgs u out quiet proxy speed use_cookies
      verify id fuzzy resume) with _ | o
  · rw [hres] at ha
    cases unzip <;> simpa using ha
  · rw [hres] at ha
    cases unzip with
    | false => simpa using ha
    | true =>
      simp only [if_true] at ha
      simp only [List.mem_cons, Event.gdownCalled.injEq] at ha
      rcases ha with heq | hmem
      · exact heq
      · exact (extractPhase_mem_gdown _ _ _ _ _ _ hmem).elim

theorem transferPhase_fs_mono (env : Env) (fs : List String) (u out : String)
    (quiet : Bool) (proxy : Option String) (speed : Option Nat)
    (use_cookies verify : Bool) (id : Option String)
    (fuzzy resume unzip subfolder : Bool) (out_dir : String) (p : String)
    (h : pathExists fs p = true) :
    pathExists (transferPhase env fs u out quiet proxy speed use_cookies verify id
      fuzzy resume unzip subfolder out_dir).fs p = true := by
  simp only [transferPhase]
  rcases hres : env.gdownResult (dfArgs u out quiet proxy speed use_cookies
      verify id fuzzy resume) with _ | o
  · cases unzip <;> simp [h]
  · cases unzip with
    | false => simpa using pathExists_cons _ _ _ h
    | true =>
      simp only [if_true]
      exact extractPhase_fs_mono _ _ _ _ _ _ (pathExists_cons _ _ _ h)

/-- C6: for every string url containing `"https://drive.google.com/file/d/"`,
every transfer invocation performed by `download_file` passes `fuzzy = True`,
regardless of the caller's `fuzzy` argument.  (Runs that stop before the
transfer — skip path, missing import, TypeError — emit no transfer event, so
the statement covers exactly the calls the claim excludes.)  The proof
includes showing that the GitHub-blob rewrite cannot destroy an occurrence
of the Drive pattern. -/
theorem download_file_drive_fuzzy
    (env : Env) (fs : List String) (u : String) (output : Option String)
    (quiet : Bool) (proxy : Option String) (speed : Option Nat)
    (use_cookies verify : Bool) (id : Option String)
    (fuzzy resume unzip overwrite subfolder : Bool)
    (hc : containsS "https://drive.google.com/file/d/" u = true) :
    ∀ a : GdownArgs,
      Event.gdownCalled a ∈ (download_file env fs (some u) output quiet proxy speed
        use_cookies verify id fuzzy resume unzip overwrite subfolder).trace →
      a.fuzzy = true := by
  intro a ha
  by_cases hg : env.gdownAvailable = true
  · cases hout : effOutput (some u) output with
    | none => simp [download_file, hg, hout] at ha
    | some out =>
      by_cases hskip : (pathExists (ensureDir fs (abspathS env.cwd (dirnameS out))).1
          (abspathS env.cwd out) && !overwrite) = true
      · simp [download_file, hg, hout, hskip] at ha
        exact (ensureDir_mem_gdown _ _ _ ha).elim
      · have hskip' : (pathExists (ensureDir fs (abspathS env.cwd (dirnameS out))).1
            (abspathS env.cwd out) && !overwrite) = false := by
          revert hskip; cases pathExists (ensureDir fs (abspathS env.cwd (dirnameS out))).1
            (abspathS env.cwd out) && !overwrite <;> simp
        simp only [download_file, hg, hout, hskip', List.mem_append] at ha
        rcases (by simpa using ha : Event.gdownCalled a ∈
            (ensureDir fs (abspathS env.cwd (dirnameS out))).2 ∨ Event.gdownCalled a ∈
            (transferPhase env (ensureDir fs (abspathS env.cwd (dirnameS out))).1 u out
              quiet proxy speed use_cookies verify id fuzzy resume unzip subfolder
              (abspathS env.cwd (dirnameS out))).trace) with hmem | hmem
        · exact (ensureDir_mem_gdown _ _ _ hmem).elim
        · have := transferPhase_gdown_args _ _ _ _ _ _ _ _ _ _ _ _ _ _ _ _ hmem
          rw [this]
          simp [dfArgs, contains_drive_github_raw u hc]
  · have hg' : env.gdownAvailable = false := by
      revert hg; cases env.gdownAvailable <;> simp
    simp [download_file, hg'] at ha

/-- Witness for C6: a Drive URL makes the recorded transfer arguments carry
`fuzzy = true` even though the caller passed `fuzzy = false`. -/
theorem download_file_drive_fuzzy_w :
    (dfArgs "https://drive.google.com/file/d/ABC" "f" false none none true true
      none false false).fuzzy = true :=
  download_file_drive_fuzzy envAvail [] "https://drive.google.com/file/d/ABC"
    (some "f") false none none true true none false false false false false
    (by decide)
    (dfArgs "https://drive.google.com/file/d/ABC" "f" false none none true true
      none false false)
    (by decide)

/-- C8: with the import available, whenever the effective output path is a
string `out` (explicit or defaulted from the URL), the output directory
`abspath(dirname(out))` exists in the final filesystem, and if it was absent
at call time, the very first recorded event is its creation with makedirs —
before any skip-check print, transfer, or extraction event. -/
theorem download_file_parent_dir
    (env : Env) (fs : List String) (url output : Option String) (out : String)
    (quiet : Bool) (proxy : Option String) (speed : Option Nat)
    (use_cookies verify : Bool) (id : Option String)
    (fuzzy resume unzip overwrite subfolder : Bool)
    (hg : env.gdownAvailable = true)
    (hout : effOutput url output = some out) :
    pathExists (download_file env fs url output quiet proxy speed use_cookies verify id
      fuzzy resume unzip overwrite subfolder).fs (outDirOf env out) = true ∧
    (pathExists fs (outDirOf env out) = false →
      (download_file env fs url output quiet proxy speed use_cookies verify id
        fuzzy resume unzip overwrite subfolder).trace.head?
        = some (Event.madeDirs (outDirOf env out))) := by
  constructor
  · cases url with
    | none =>
      simp [download_file, hg, hout, outDirOf, ensureDir_fst_self]
    | some u =>
      by_cases hskip : (pathExists (ensureDir fs (abspathS env.cwd (dirnameS out))).1
          (abspathS env.cwd out) && !overwrite) = true
      · simp [download_file, hg, hout, hskip, outDirOf, ensureDir_fst_self]
      · have hskip' : (pathExists (ensureDir fs (abspathS env.cwd (dirnameS out))).1
            (abspathS env.cwd out) && !overwrite) = false := by
          revert hskip
          cases pathExists (ensureDir fs (abspathS env.cwd (dirnameS out))).1
            (abspathS env.cwd out) && !overwrite <;> simp
        simp only [download_file, hg, hout, hskip', outDirOf]
        simp only [Bool.true_eq_false, if_false, Bool.false_eq_true]
        exact transferPhase_fs_mono _ _ _ _ _ _ _ _ _ _ _ _ _ _ _ _
          (ensureDir_fst_self _ _)
  · intro habs
    have habs' : pathExists fs (abspathS env.cwd (dirnameS out)) = false := by
      simpa [outDirOf] using habs
    have hed := ensureDir_eq_absent fs (abspathS env.cwd (dirnameS out)) habs'
    cases url with
    | none =>
      simp [download_file, hg, hout, outDirOf, hed]
    | some u =>
      simp [download_file, hg, hout, outDirOf, hed]
      split_ifs <;> rfl

/-- Witness for C8: the output directory is created and exists afterwards. -/
theorem download_file_parent_dir_w :
    pathExists (download_file envAvail [] (some "http://h/a") (some "/d/a")
      false none none true true none false false false false false).fs
      (outDirOf envAvail "/d/a") = true ∧
    (pathExists ([] : List String) (outDirOf envAvail "/d/a") = false →
      (download_file envAvail [] (some "http://h/a") (some "/d/a")
        false none none true true none false false false false false).trace.head?
        = some (Event.madeDirs (outDirOf envAvail "/d/a"))) :=
  download_file_parent_dir envAvail [] (some "http://h/a") (some "/d/a") "/d/a"
    false none none true true none false false false false false rfl rfl

theorem extractPhase_dests (fs : List String) (quiet subfolder : Bool)
    (out_dir o : String)
    (hext : (endsWithS o ".zip" || endsWithS o ".tar.gz" || endsWithS o ".tar") = true) :
    (subfolder = false →
      extractDests (extractPhase fs quiet subfolder out_dir o).2.2 = [dirnameS o]) ∧
    (subfolder = true →
      extractDests (extractPhase fs quiet subfolder out_dir o).2.2
        = [joinS out_dir ((splitextS (basenameS o)).1)] ∧
      pathExists (extractPhase fs quiet subfolder out_dir o).2.1
        (joinS out_dir ((splitextS (basenameS o)).1)) = true ∧
      (pathExists fs (joinS out_dir ((splitextS (basenameS o)).1)) = false →
        Event.madeDirs (joinS out_dir ((splitextS (basenameS o)).1))
          ∈ (extractPhase fs quiet subfolder out_dir o).2.2)) := by
  have hcases : endsWithS o ".zip" = true ∨
      (endsWithS o ".zip" = false ∧ (endsWithS o ".tar.gz" || endsWithS o ".tar") = true) := by
    cases h : endsWithS o ".zip"
    · exact Or.inr ⟨rfl, by simpa [h] using hext⟩
    · exact Or.inl rfl
  constructor
  · rintro rfl
    rcases hcases with hz | ⟨hz, ht⟩
    · cases quiet <;> simp [extractPhase, hz, extractDests]
    · cases quiet <;> simp [extractPhase, hz, ht, extractDests]
  · rintro rfl
    by_cases hsub : pathExists fs (joinS out_dir ((splitextS (basenameS o)).1)) = true
    · have hed := ensureDir_eq_present fs _ hsub
      rcases hcases with hz | ⟨hz, ht⟩
      · cases quiet <;>
          simp [extractPhase, hz, extractDests, hed, hsub]
      · cases quiet <;>
          simp [extractPhase, hz, ht, extractDests, hed, hsub]
    · have hsub' : pathExists fs (joinS out_dir ((splitextS (basenameS o)).1)) = false := by
        revert hsub
        cases pathExists fs (joinS out_dir ((splitextS (basenameS o)).1)) <;> simp
      have hed := ensureDir_eq_absent fs _ hsub'
      rcases hcases with hz | ⟨hz, ht⟩
      · cases quiet <;>
          simp [extractPhase, hz, extractDests, hed, pathExists_self_cons]
      · cases quiet <;>
          simp [extractPhase, hz, ht, extractDests, hed, pathExists_self_cons]

/-- C3: when `unzip` is requested, the transfer succeeded, and the resulting
file name ends in ".zip", ".tar.gz" or ".tar", `download_file` extracts the
archive exactly once — into the archive's directory (`dirname` of the
downloaded path) when `subfolder` is `False`, and into the subfolder
`join(out_dir, splitext(basename(output))[0])` when `subfolder` is `True`,
creating that subfolder when it is absent. -/
theorem download_file_extracts
    (env : Env) (fs : List String) (u out o : String)
    (quiet : Bool) (proxy : Option String) (speed : Option Nat)
    (use_cookies verify : Bool) (id : Option String)
    (fuzzy resume overwrite subfolder : Bool)
    (hg : env.gdownAvailable = true)
    (hskip : (pathExists (ensureDir fs (abspathS env.cwd (dirnameS out))).1
        (abspathS env.cwd out) && !overwrite) = false)
    (hres : ∀ a, env.gdownResult a = some o)
    (hext : (endsWithS o ".zip" || endsWithS o ".tar.gz" || endsWithS o ".tar") = true) :
    (subfolder = false →
      extractDests (download_file env fs (some u) (some out) quiet proxy speed
        use_cookies verify id fuzzy resume true overwrite subfolder).trace
        = [dirnameS o]) ∧
    (subfolder = true →
      extractDests (download_file env fs (some u) (some out) quiet proxy speed
        use_cookies verify id fuzzy resume true overwrite subfolder).trace
        = [subDirOf env out o] ∧
      pathExists (download_file env fs (some u) (some out) quiet proxy speed
        use_cookies verify id fuzzy resume true overwrite subfolder).fs
        (subDirOf env out o) = true ∧
      (pathExists (o :: (ensureDir fs (abspathS env.cwd (dirnameS out))).1)
          (subDirOf env out o) = false →
        Event.madeDirs (subDirOf env out o)
          ∈ (download_file env fs (some u) (some out) quiet proxy speed
            use_cookies verify id fuzzy resume true overwrite subfolder).trace)) := by
  have hmain : download_file env fs (some u) (some out) quiet proxy speed
      use_cookies verify id fuzzy resume true overwrite subfolder =
      { ret := (transferPhase env (ensureDir fs (abspathS env.cwd (dirnameS out))).1
          u out quiet proxy speed use_cookies verify id fuzzy resume true subfolder
          (abspathS env.cwd (dirnameS out))).ret,
        fs := (transferPhase env (ensureDir fs (abspathS env.cwd (dirnameS out))).1
          u out quiet proxy speed use_cookies verify id fuzzy resume true subfolder
          (abspathS env.cwd (dirnameS out))).fs,
        trace := (ensureDir fs (abspathS env.cwd (dirnameS out))).2 ++
          (transferPhase env (ensureDir fs (abspathS env.cwd (dirnameS out))).1
            u out quiet proxy speed use_cookies verify id fuzzy resume true subfolder
            (abspathS env.cwd (dirnameS out))).trace } := by
    simp [download_file, hg, effOutput, hskip]
  have htp : transferPhase env (ensureDir fs (abspathS env.cwd (dirnameS out))).1
      u out quiet proxy speed use_cookies verify id fuzzy resume true subfolder
      (abspathS env.cwd (dirnameS out)) =
      { ret := .ok (some (abspathS env.cwd
          (extractPhase (o :: (ensureDir fs (abspathS env.cwd (dirnameS out))).1)
            quiet subfolder (abspathS env.cwd (dirnameS out)) o).1)),
        fs := (extractPhase (o :: (ensureDir fs (abspathS env.cwd (dirnameS out))).1)
            quiet subfolder (abspathS env.cwd (dirnameS out)) o).2.1,
        trace := Event.gdownCalled (dfArgs u out quiet proxy speed use_cookies verify
            id fuzzy resume) ::
          (extractPhase (o :: (ensureDir fs (abspathS env.cwd (dirnameS out))).1)
            quiet subfolder (abspathS env.cwd (dirnameS out)) o).2.2 } := by
    simp [transferPhase, hres]
  have hdd := extractPhase_dests
    (o :: (ensureDir fs (abspathS env.cwd (dirnameS out))).1) quiet subfolder
    (abspathS env.cwd (dirnameS out)) o hext
  have hedests : ∀ d : String, extractDests (ensureDir fs d).2 = [] := by
    intro d
    unfold ensureDir
    by_cases h : pathExists fs d = true
    · simp [h, extractDests]
    · simp only [Bool.not_eq_true] at h
      simp [h, extractDests]
  constructor
  · intro hsf
    rw [hmain]
    simp only [htp, extractDests, List.filterMap_append]
    rw [← extractDests, ← extractDests, hedests]
    simpa using hdd.1 hsf
  · intro hsf
    refine ⟨?_, ?_, ?_⟩
    · rw [hmain]
      simp only [htp, extractDests, List.filterMap_append]
      rw [← extractDests, ← extractDests, hedests]
      simpa [subDirOf, outDirOf] using (hdd.2 hsf).1
    · rw [hmain]
      simp only [htp]
      simpa [subDirOf, outDirOf] using (hdd.2 hsf).2.1
    · intro habs
      rw [hmain]
      simp only [htp, List.mem_append, List.mem_cons]
      have := (hdd.2 hsf).2.2 (by simpa [subDirOf, outDirOf] using habs)
      right
      right
      simpa [subDirOf, outDirOf] using this

/-- Witness for C3: a zip archive, `subfolder = False`: one extraction into
the archive's directory. -/
theorem download_file_extracts_w :
    extractDests (download_file envZipRes [] (some "http://h/f.zip")
      (some "/w/f.zip") false none none true true none false false true false
      false).trace = [dirnameS "/w/f.zip"] :=
  (download_file_extracts envZipRes [] "http://h/f.zip" "/w/f.zip" "/w/f.zip"
    false none none true true none false false false false rfl (by decide)
    (fun _ => rfl) (by decide)).1 rfl

theorem download_files_go_spec (env : Env) (od : String)
    (quiet : Bool) (proxy : Option String) (speed : Option Nat)
    (use_cookies verify : Bool) (id : Option String)
    (fuzzy resume unzip overwrite subfolder : Bool) :
    ∀ (pairs : List (String × Option String)) (fs : List String),
      (∃ t, destPairs od pairs =
        (download_files_go env od quiet proxy speed use_cookies verify id fuzzy
          resume unzip overwrite subfolder fs pairs).calls ++ t) ∧
      ((download_files_go env od quiet proxy speed use_cookies verify id fuzzy
          resume unzip overwrite subfolder fs pairs).err = none →
        (download_files_go env od quiet proxy speed use_cookies verify id fuzzy
          resume unzip overwrite subfolder fs pairs).calls = destPairs od pairs) := by
  intro pairs
  induction pairs with
  | nil =>
    intro fs
    exact ⟨⟨[], by simp [download_files_go, destPairs]⟩,
      fun _ => by simp [download_files_go, destPairs]⟩
  | cons p rest ih =>
    intro fs
    obtain ⟨url, output⟩ := p
    rcases hret : (download_file env fs (some url) (some (itemDest od url output))
        quiet proxy speed use_cookies verify id fuzzy resume unzip overwrite
        subfolder).ret with e | v
    · constructor
      · refine ⟨destPairs od rest, ?_⟩
        simp [download_files_go, hret, destPairs]
      · intro he
        simp [download_files_go, hret] at he
    · obtain ⟨⟨t, hpre⟩, hful⟩ := ih (download_file env fs (some url)
        (some (itemDest od url output)) quiet proxy speed use_cookies verify id
        fuzzy resume unzip overwrite subfolder).fs
      constructor
      · refine ⟨t, ?_⟩
        simp only [download_files_go, hret, destPairs, List.map_cons]
        simp only [destPairs] at hpre
        rw [hpre]
        simp
      · intro he
        have he' : (download_files_go env od quiet proxy speed use_cookies verify id
            fuzzy resume unzip overwrite subfolder (download_file env fs (some url)
              (some (itemDest od url output)) quiet proxy speed use_cookies verify id
              fuzzy resume unzip overwrite subfolder).fs rest).err = none := by
          simpa [download_files_go, hret] using he
        simp only [download_files_go, hret, destPairs, List.map_cons]
        simp only [destPairs] at hful
        rw [hful he']

theorem download_files_go_err (env : Env) (od : String)
    (quiet : Bool) (proxy : Option String) (speed : Option Nat)
    (use_cookies verify : Bool) (id : Option String)
    (fuzzy resume unzip overwrite subfolder : Bool) :
    ∀ (pairs : List (String × Option String)) (fs : List String) (e : PyErr),
      (download_files_go env od quiet proxy speed use_cookies verify id fuzzy
        resume unzip overwrite subfolder fs pairs).err = some e →
      ∃ pre p post fs',
        pairs = pre ++ p :: post ∧
        (download_files_go env od quiet proxy speed use_cookies verify id fuzzy
          resume unzip overwrite subfolder fs pairs).calls
          = destPairs od (pre ++ [p]) ∧
        (download_file env fs' (some p.1) (some (itemDest od p.1 p.2)) quiet proxy
          speed use_cookies verify id fuzzy resume unzip overwrite subfolder).ret
          = .error e := by
  intro pairs
  induction pairs with
  | nil =>
    intro fs e h
    simp [download_files_go] at h
  | cons p rest ih =>
    intro fs e h
    obtain ⟨url, output⟩ := p
    rcases hret : (download_file env fs (some url) (some (itemDest od url output))
        quiet proxy speed use_cookies verify id fuzzy resume unzip overwrite
        subfolder).ret with e' | v
    · have he' : e' = e := by
        simpa [download_files_go, hret] using h
      subst he'
      refine ⟨[], (url, output), rest, fs, rfl, ?_, hret⟩
      simp [download_files_go, hret, destPairs]
    · have h' : (download_files_go env od quiet proxy speed use_cookies verify id
          fuzzy resume unzip overwrite subfolder (download_file env fs (some url)
            (some (itemDest od url output)) quiet proxy speed use_cookies verify id
            fuzzy resume unzip overwrite subfolder).fs rest).err = some e := by
        simpa [download_files_go, hret] using h
      obtain ⟨pre, p', post, fs', hsplit, hcalls, herr⟩ :=
        ih (download_file env fs (some url) (some (itemDest od url output)) quiet
          proxy speed use_cookies verify id fuzzy resume unzip overwrite
          subfolder).fs e h'
      refine ⟨(url, output) :: pre, p', post, fs', by rw [List.cons_append, hsplit], ?_, herr⟩
      simp only [download_files_go, hret, destPairs, List.map_cons, List.cons_append]
      simp only [destPairs] at hcalls
      rw [hcalls]

/-- C4: each destination passed to `download_file` by `download_files` is
`join(out_dir, basename(url))` when no filename is given for that item and
`join(out_dir, filename)` otherwise (`itemDest`), with `out_dir` defaulting
to the current working directory when it is `None` (`effOutDir`): the calls
made are always a prefix of the per-pair destinations, and all of them when
no exception aborts the batch. -/
theorem download_files_dests
    (env : Env) (fs : List String) (urls : List String)
    (out_dir : Option String) (filenames : Option (List (Option String)))
    (quiet : Bool) (proxy : Option String) (speed : Option Nat)
    (use_cookies verify : Bool) (id : Option String)
    (fuzzy resume unzip overwrite subfolder : Bool) :
    (∃ t, destPairs (effOutDir env out_dir) (urls.zip (effectiveFilenames urls filenames)) =
      (download_files env fs urls out_dir filenames quiet proxy speed use_cookies
        verify id fuzzy resume unzip overwrite subfolder).calls ++ t) ∧
    ((download_files env fs urls out_dir filenames quiet proxy speed use_cookies
        verify id fuzzy resume unzip overwrite subfolder).err = none →
      (download_files env fs urls out_dir filenames quiet proxy speed use_cookies
        verify id fuzzy resume unzip overwrite subfolder).calls =
        destPairs (effOutDir env out_dir) (urls.zip (effectiveFilenames urls filenames))) := by
  simpa [download_files] using
    download_files_go_spec env (effOutDir env out_dir) quiet proxy speed
      use_cookies verify id fuzzy resume unzip overwrite subfolder
      (urls.zip (effectiveFilenames urls filenames)) fs

/-- Witness for C4: two URLs, one default filename and one given filename,
`out_dir = None` (so the environment working directory is used). -/
theorem download_files_dests_w :
    (download_files envAvail [] ["http://h/a.txt", "http://h/b"] none
        (some [none, some "x"]) false none none true true none false false false
        false false).calls =
      destPairs (effOutDir envAvail none)
        (["http://h/a.txt", "http://h/b"].zip
          (effectiveFilenames ["http://h/a.txt", "http://h/b"] (some [none, some "x"]))) :=
  (download_files_dests envAvail [] ["http://h/a.txt", "http://h/b"] none
    (some [none, some "x"]) false none none true true none false false false
    false false).2 (by rfl)

/-- C7: if `download_file` raises on some item, the exception propagates out
of `download_files` and no later item is processed: the pair list splits as
`pre ++ p :: post` where every item of `pre` succeeded, the calls made are
exactly those for `pre ++ [p]` (nothing of `post` is reached), and the
batch's error is the exception raised on `p`. -/
theorem download_files_error_aborts
    (env : Env) (fs : List String) (urls : List String)
    (out_dir : Option String) (filenames : Option (List (Option String)))
    (quiet : Bool) (proxy : Option String) (speed : Option Nat)
    (use_cookies verify : Bool) (id : Option String)
    (fuzzy resume unzip overwrite subfolder : Bool) (e : PyErr)
    (h : (download_files env fs urls out_dir filenames quiet proxy speed
      use_cookies verify id fuzzy resume unzip overwrite subfolder).err = some e) :
    ∃ pre p post fs',
      urls.zip (effectiveFilenames urls filenames) = pre ++ p :: post ∧
      (download_files env fs urls out_dir filenames quiet proxy speed use_cookies
        verify id fuzzy resume unzip overwrite subfolder).calls
        = destPairs (effOutDir env out_dir) (pre ++ [p]) ∧
      (download_file env fs' (some p.1)
        (some (itemDest (effOutDir env out_dir) p.1 p.2)) quiet proxy speed
        use_cookies verify id fuzzy resume unzip overwrite subfolder).ret
        = .error e := by
  have h' := download_files_go_err env (effOutDir env out_dir) quiet proxy speed
    use_cookies verify id fuzzy resume unzip overwrite subfolder
    (urls.zip (effectiveFilenames urls filenames)) fs e
    (by simpa [download_files] using h)
  simpa [download_files] using h'

/-- Witness for C7: the transfer returns `None` and `unzip` is set, so the
first item raises `AttributeError`; the second URL is never processed. -/
theorem download_files_error_aborts_w :
    ∃ pre p post fs',
      (["http://h/a", "http://h/b"].zip
        (effectiveFilenames ["http://h/a", "http://h/b"] none)) = pre ++ p :: post ∧
      (download_files envNoneRes [] ["http://h/a", "http://h/b"] (some "/o") none
        false none none true true none false false true false false).calls
        = destPairs (effOutDir envNoneRes (some "/o")) (pre ++ [p]) ∧
      (download_file envNoneRes fs' (some p.1)
        (some (itemDest (effOutDir envNoneRes (some "/o")) p.1 p.2)) false none
        none true true none false false true false false).ret
        = .error PyErr.attributeError :=
  download_files_error_aborts envNoneRes [] ["http://h/a", "http://h/b"]
    (some "/o") none false none none true true none false false true false false
    PyErr.attributeError (by rfl)

/-- C10: when `filenames` is a given list, `zip` truncates to the shorter of
the two lists: an error-free run performs exactly
`min (len urls) (len filenames)` calls — extra URLs are silently skipped and
extra filenames are ignored. -/
theorem download_files_min_pairs
    (env : Env) (fs : List String) (urls : List String)
    (out_dir : Option String) (l : List (Option String))
    (quiet : Bool) (proxy : Option String) (speed : Option Nat)
    (use_cookies verify : Bool) (id : Option String)
    (fuzzy resume unzip overwrite subfolder : Bool)
    (he : (download_files env fs urls out_dir (some l) quiet proxy speed
      use_cookies verify id fuzzy resume unzip overwrite subfolder).err = none) :
    (download_files env fs urls out_dir (some l) quiet proxy speed use_cookies
        verify id fuzzy resume unzip overwrite subfolder).calls
      = destPairs (effOutDir env out_dir) (urls.zip l) ∧
    (download_files env fs urls out_dir (some l) quiet proxy speed use_cookies
        verify id fuzzy resume unzip overwrite subfolder).calls.length
      = min urls.length l.length := by
  have hcalls := (download_files_go_spec env (effOutDir env out_dir) quiet proxy
    speed use_cookies verify id fuzzy resume unzip overwrite subfolder
    (urls.zip (effectiveFilenames urls (some l))) fs).2
    (by simpa [download_files] using he)
  have hcalls' : (download_files env fs urls out_dir (some l) quiet proxy speed
      use_cookies verify id fuzzy resume unzip overwrite subfolder).calls
      = destPairs (effOutDir env out_dir) (urls.zip l) := by
    simpa [download_files, effectiveFilenames] using hcalls
  refine ⟨hcalls', ?_⟩
  rw [hcalls']
  simp [destPairs, List.length_zip]

/-- Witness for C10: two URLs, one filename: exactly `min 2 1 = 1` call. -/
theorem download_files_min_pairs_w :
    (download_files envAvail [] ["http://h/a", "http://h/b"] (some "/o")
        (some [some "p"]) false none none true true none false false false false
        false).calls
      = destPairs (effOutDir envAvail (some "/o"))
          (["http://h/a", "http://h/b"].zip [some "p"]) ∧
    (download_files envAvail [] ["http://h/a", "http://h/b"] (some "/o")
        (some [some "p"]) false none none true true none false false false false
        false).calls.length
      = min (["http://h/a", "http://h/b"] : List String).length
          ([some "p"] : List (Option String)).length :=
  download_files_min_pairs envAvail [] ["http://h/a", "http://h/b"] (some "/o")
    [some "p"] false none none true true none false false false false false
    (by rfl)

end Earthformer
